import Mathlib

/-!
Verification of the schema validation engine of the scim repository
(package schema, file schema.go): whole-document validation, patch
validation, path-based attribute resolution, the mutability guard and
schema serialization. The engine itself is embedded faithfully from the
source; the collaborators that the source consumes from other packages
(the attribute definitions, the error values, the optional strings and
the path-expression capability) are modelled from the specification,
which treats them as opaque.
-/

namespace Scim

/-- Modelled from the spec: the closed error taxonomy of the errors
package (success sentinel, syntax failure, value failure); the Go values
are ValidationErrorNil, ValidationErrorInvalidSyntax and
ValidationErrorInvalidValue. -/
inductive ValidationError where
  | nil
  | invalidSyntaxErr
  | invalidValue
deriving DecidableEq

/-- Modelled from the spec: the four mutability classes of an attribute
definition. -/
inductive AttributeMutability where
  | readOnly
  | readWrite
  | immutable
  | writeOnly
deriving DecidableEq

/-- Mirror of the Go constant attributeMutabilityReadOnly. -/
def attributeMutabilityReadOnly : AttributeMutability := .readOnly

/-- Mirror of the Go constant attributeMutabilityReadWrite. -/
def attributeMutabilityReadWrite : AttributeMutability := .readWrite

/-- Mirror of the Go constant attributeMutabilityImmutable. -/
def attributeMutabilityImmutable : AttributeMutability := .immutable

/-- Mirror of the Go constant attributeMutabilityWriteOnly. -/
def attributeMutabilityWriteOnly : AttributeMutability := .writeOnly

/-- Modelled from the spec: JSON-shaped values (object, array, string,
number, boolean, null), embedding the untyped interface values handled by
the Go code; a Go map is an object and the nil interface is null. -/
inductive Value where
  | null
  | str (s : String)
  | num (n : Int)
  | bool (b : Bool)
  | arr (elems : List Value)
  | obj (fields : List (String × Value))

/-- Modelled from the spec: an AttributeDefinition (the Go CoreAttribute,
declared outside the embedded file): a name, a mutability class, the child
attributes, the opaque per-attribute validate capability returning a
normalized value and an error, and the output of the opaque rendering
capability (getRawAttributes) as a rendered document. -/
inductive CoreAttribute where
  | mk (name : String) (mutability : AttributeMutability)
      (subAttributes : List CoreAttribute)
      (validate : Value → Value × ValidationError)
      (rawAttributes : List (String × Value))

/-- Field accessor for the attribute name. -/
def CoreAttribute.name : CoreAttribute → String
  | .mk n _ _ _ _ => n

/-- Field accessor for the mutability class. -/
def CoreAttribute.mutability : CoreAttribute → AttributeMutability
  | .mk _ m _ _ _ => m

/-- Field accessor for the child attributes. -/
def CoreAttribute.subAttributes : CoreAttribute → List CoreAttribute
  | .mk _ _ subs _ _ => subs

/-- Field accessor for the opaque validate capability. -/
def CoreAttribute.validate : CoreAttribute → Value → Value × ValidationError
  | .mk _ _ _ f _ => f

/-- Field accessor for the rendered document of the attribute. -/
def CoreAttribute.rawAttributes : CoreAttribute → List (String × Value)
  | .mk _ _ _ _ r => r

/-- Embedding of the Go struct Schema; the optional strings of the
optional package are modelled from the spec as Option String. -/
structure Schema where
  Attributes : List CoreAttribute
  Description : Option String
  ID : String
  Name : Option String

/-- Case folding of a character (letters compared without case). -/
def foldChar (c : Char) : Char := c.toLower

/-- Structural scan behind EqualFold, written on character lists so that
it evaluates by kernel reduction. -/
def foldChars : List Char → List Char → Bool
  | [], [] => true
  | a :: as, b :: bs => (foldChar a == foldChar b) && foldChars as bs
  | _, _ => false

/-- Embedding of strings.EqualFold (simple folding): the two strings are
equal up to letter case. -/
def EqualFold (a b : String) : Bool := foldChars a.data b.data

/-- Splits a character list at the dots. -/
def splitDots : List Char → List (List Char)
  | [] => [[]]
  | c :: rest =>
    if c = '.' then [] :: splitDots rest
    else
      match splitDots rest with
      | seg :: segs => (c :: seg) :: segs
      | [] => [[c]]

/-- Modelled from the spec: the external path-expression capability
(the Go filter.ParsePath of another module), consumed as
parse(path) to (attributeName, subpath) or a parse error: an attribute
name with at most one sub-attribute, both nonempty; anything else is a
parse error. -/
def parsePath (path : String) : Option (String × String) :=
  match splitDots path.data with
  | [name] => if name.isEmpty then none else some (String.mk name, "")
  | [name, sub] =>
    if name.isEmpty || sub.isEmpty then none
    else some (String.mk name, String.mk sub)
  | _ => none

/-- Embedding of isImmutable: an immutable attribute under replace or
remove. -/
def isImmutable (op : String) (attr : CoreAttribute) : Bool :=
  attr.mutability == attributeMutabilityImmutable && (op == "replace" || op == "remove")

/-- Embedding of isReadOnly. -/
def isReadOnly (attr : CoreAttribute) : Bool :=
  attr.mutability == attributeMutabilityReadOnly

/-- Embedding of cannotBePatched: the mutability guard. -/
def cannotBePatched (op : String) (attr : CoreAttribute) : Bool :=
  isImmutable op attr || isReadOnly attr

/-- Embedding of the loop body of findAttribute after the path has been
parsed into an attribute name and a sub-path: scan the attribute list for
the first case-insensitive match, apply the mutability gate, and descend
into the children when a sub-path remains and children exist; the
recursive call parses the sub-path on entry, exactly as the source
re-parses it at the head of the recursive invocation. -/
def findAttrAux (operation name sub : String) : List CoreAttribute → Option CoreAttribute × ValidationError
  | [] => (none, ValidationError.invalidValue)
  | CoreAttribute.mk n m subs f r :: rest =>
    if EqualFold n name then
      if cannotBePatched operation (CoreAttribute.mk n m subs f r) then
        (none, ValidationError.invalidValue)
      else if sub ≠ "" ∧ 0 < subs.length then
        match parsePath sub with
        | none => (none, ValidationError.invalidValue)
        | some (name2, sub2) => findAttrAux operation name2 sub2 subs
      else (some (CoreAttribute.mk n m subs f r), ValidationError.nil)
    else findAttrAux operation name sub rest

/-- Embedding of findAttribute: parse the path, then resolve it against
the attribute list. -/
def findAttribute (operation path : String) (attributes : List CoreAttribute) : Option CoreAttribute × ValidationError :=
  match parsePath path with
  | none => (none, ValidationError.invalidValue)
  | some (name, sub) => findAttrAux operation name sub attributes

/-- Embedding of a Go map assignment on the output mapping: overwrite the
entry with the same key or append a new one. -/
def insertKV : List (String × Value) → String → Value → List (String × Value)
  | [], key, v => [(key, v)]
  | (k, w) :: rest, key, v =>
    if k = key then (key, v) :: rest else (k, w) :: insertKV rest key v

/-- Lookup of a key in an output mapping (exact key comparison, as in a
Go map). -/
def lookupKV (key : String) : List (String × Value) → Option Value
  | [] => none
  | (k, w) :: rest => if k = key then some w else lookupKV key rest

/-- Embedding of the inner loop of Schema.Validate over the document
fields: found records whether a case-insensitive match was already seen
and hit the matched value; a second match is the ambiguous duplicate,
reported as none (the invalid-syntax outcome). -/
def validateScan (name : String) (found : Bool) (hit : Value) : List (String × Value) → Option (Bool × Value)
  | [] => some (found, hit)
  | (k, v) :: rest =>
    if EqualFold name k then
      if found then none
      else validateScan name true v rest
    else validateScan name found hit rest

/-- Embedding of the outer loop of Schema.Validate over the declared
attributes, accumulating the output mapping. -/
def validateAttributes : List CoreAttribute → List (String × Value) → List (String × Value) → Option (List (String × Value)) × ValidationError
  | [], _, attributes => (some attributes, ValidationError.nil)
  | attrDef :: rest, core, attributes =>
    match validateScan attrDef.name false Value.null core with
    | none => (none, ValidationError.invalidSyntaxErr)
    | some (_, hit) =>
      let res := attrDef.validate hit
      if res.2 ≠ ValidationError.nil then (none, res.2)
      else validateAttributes rest core (insertKV attributes attrDef.name res.1)

/-- Embedding of Schema.Validate: the resource must be a flat mapping,
then every declared attribute is matched case-insensitively against the
document fields and validated. -/
def Schema.Validate (s : Schema) (resource : Value) : Option (List (String × Value)) × ValidationError :=
  match resource with
  | Value.obj core => validateAttributes s.Attributes core []
  | _ => (none, ValidationError.invalidSyntaxErr)

/-- Embedding of the loop of Schema.ValidatePatchOperationValue over the
(path, value) pairs of one patch instruction. -/
def validatePatchPairs (operation : String) (attributes : List CoreAttribute) : List (String × Value) → ValidationError
  | [] => ValidationError.nil
  | (k, v) :: rest =>
    match findAttribute operation k attributes with
    | (attr, err) =>
      if err ≠ ValidationError.nil then err
      else
        match attr with
        | none => ValidationError.invalidValue
        | some a =>
          if cannotBePatched operation a then ValidationError.invalidValue
          else
            let scimErr := if operation ≠ "remove" then (a.validate v).2 else ValidationError.nil
            if scimErr ≠ ValidationError.nil then scimErr
            else validatePatchPairs operation attributes rest

/-- Embedding of Schema.ValidatePatchOperationValue. -/
def Schema.ValidatePatchOperationValue (s : Schema) (operation : String) (operationValue : List (String × Value)) : ValidationError :=
  validatePatchPairs operation s.Attributes operationValue

/-- Modelled from the spec: the rendering of an absent optional string by
the Value accessor of the optional package (the zero value, an empty
string). -/
def optionalStringValue : Option String → String
  | none => ""
  | some s => s

/-- Modelled from the spec: the JSON rendering of an optional string
(null when absent, the string otherwise). -/
def marshalOptionalString : Option String → Value
  | none => Value.null
  | some s => Value.str s

/-- Embedding of Schema.getRawAttributes: the rendered documents of the
declared attributes, in declaration order. -/
def Schema.getRawAttributes (s : Schema) : List (List (String × Value)) :=
  s.Attributes.map CoreAttribute.rawAttributes

/-- Embedding of Schema.MarshalJSON: the serialized schema document with
its four keys. -/
def Schema.MarshalJSON (s : Schema) : List (String × Value) :=
  [("id", Value.str s.ID),
   ("name", marshalOptionalString s.Name),
   ("description", Value.str (optionalStringValue s.Description)),
   ("attributes", Value.arr (s.getRawAttributes.map Value.obj))]

/-- Number of document fields whose key matches the given attribute name
case-insensitively. -/
def matchCount (name : String) (core : List (String × Value)) : Nat :=
  core.countP (fun kv => EqualFold name kv.1)

/-- The matched document value of an attribute name, or null (the absent
marker) when no field matches. -/
def hitOf (name : String) (core : List (String × Value)) : Value :=
  match core.find? (fun kv => EqualFold name kv.1) with
  | some kv => kv.2
  | none => Value.null

/-- Validator accepting every value unchanged. -/
def okValidator : Value → Value × ValidationError := fun v => (v, ValidationError.nil)

/-- Validator rejecting every value with the value error. -/
def rejectValidator : Value → Value × ValidationError := fun _ => (Value.null, ValidationError.invalidValue)

/-- A ReadWrite child attribute named familyName. -/
def familyNameAttr : CoreAttribute := .mk "familyName" .readWrite [] okValidator []

/-- A ReadOnly parent attribute named name with the ReadWrite child. -/
def nameAttrReadOnly : CoreAttribute := .mk "name" .readOnly [familyNameAttr] okValidator []

/-- A ReadWrite parent attribute named name with the ReadWrite child. -/
def nameAttrRW : CoreAttribute := .mk "name" .readWrite [familyNameAttr] okValidator []

/-- Attribute named other whose validator rejects every value. -/
def otherAttr : CoreAttribute := .mk "other" .readWrite [] rejectValidator []

/-- Attribute named userName accepting every value. -/
def userNameAttr : CoreAttribute := .mk "userName" .readWrite [] okValidator []

/-- Schema declaring the rejecting attribute before userName. -/
def cexSchema : Schema := ⟨[otherAttr, userNameAttr], none, "urn:demo:cex", none⟩

/-- Document holding two distinct keys that both match userName up to
case. -/
def cexDoc : List (String × Value) := [("userName", Value.str "a"), ("USERNAME", Value.str "b")]

/-- Schema declaring only userName. -/
def demoSchema : Schema := ⟨[userNameAttr], none, "urn:demo", none⟩

/-- Case folding equality of strings is equality of the folded character
lists. -/
theorem foldChars_iff (a b : List Char) : foldChars a b = true ↔ a.map foldChar = b.map foldChar := by
  induction a generalizing b with
  | nil => cases b <;> simp [foldChars]
  | cons c as ih =>
    cases b with
    | nil => simp [foldChars]
    | cons d bs => simp [foldChars, Bool.and_eq_true, beq_iff_eq, ih]

/-- EqualFold compares the folded character lists. -/
theorem EqualFold_iff (a b : String) : EqualFold a b = true ↔ a.data.map foldChar = b.data.map foldChar := by
  simp [EqualFold, foldChars_iff]

/-- Two keys equal up to case match exactly the same attribute names. -/
theorem EqualFold_congr (k k2 : String) (h : EqualFold k k2 = true) (name : String) :
    EqualFold name k = EqualFold name k2 := by
  have hk := (EqualFold_iff k k2).mp h
  rw [Bool.eq_iff_iff, EqualFold_iff, EqualFold_iff, hk]

/-- Scanning with the found flag already set fails exactly when a further
match exists. -/
theorem validateScan_true (name : String) (hit : Value) (core : List (String × Value)) :
    validateScan name true hit core =
      if 0 < matchCount name core then none else some (true, hit) := by
  induction core with
  | nil => simp [validateScan, matchCount]
  | cons kv rest ih =>
    obtain ⟨k, v⟩ := kv
    by_cases h : EqualFold name k = true
    · simp [validateScan, h, matchCount, List.countP_cons]
    · simp only [validateScan, h, if_false, Bool.false_eq_true]
      rw [ih]
      have hm : matchCount name ((k, v) :: rest) = matchCount name rest := by
        simp [matchCount, List.countP_cons, h]
      rw [hm]

/-- Characterization of the duplicate-detecting scan: it fails exactly
when the attribute name has two or more case-insensitive matches, and
otherwise returns the matched value or the absent marker. -/
theorem validateScan_null (name : String) (core : List (String × Value)) :
    validateScan name false Value.null core =
      if 2 ≤ matchCount name core then none
      else some (decide (0 < matchCount name core), hitOf name core) := by
  induction core with
  | nil => simp [validateScan, matchCount, hitOf]
  | cons kv rest ih =>
    obtain ⟨k, v⟩ := kv
    by_cases h : EqualFold name k = true
    · have hm : matchCount name ((k, v) :: rest) = matchCount name rest + 1 := by
        simp [matchCount, List.countP_cons, h]
      have hh : hitOf name ((k, v) :: rest) = v := by
        simp [hitOf, List.find?_cons_of_pos, h]
      rw [show validateScan name false Value.null ((k, v) :: rest)
            = validateScan name true v rest from by simp [validateScan, h]]
      rw [validateScan_true, hm, hh]
      by_cases h0 : 0 < matchCount name rest
      · have h1 : 2 ≤ matchCount name rest + 1 := by omega
        simp [h0, h1]
      · have h1 : ¬ 2 ≤ matchCount name rest + 1 := by omega
        have h2 : 0 < matchCount name rest + 1 := by omega
        simp [h0, h1, h2]
    · have hm : matchCount name ((k, v) :: rest) = matchCount name rest := by
        simp [matchCount, List.countP_cons, h]
      have hh : hitOf name ((k, v) :: rest) = hitOf name rest := by
        simp [hitOf, List.find?_cons_of_neg, h]
      rw [show validateScan name false Value.null ((k, v) :: rest)
            = validateScan name false Value.null rest from by simp [validateScan, h]]
      rw [ih, hm, hh]

/-- The attribute loop of Validate reports no error exactly when every
attribute of the list has at most one case-insensitive match and its
validator accepts the matched (or absent) value. -/
theorem validateAttributes_ok_iff (attrs : List CoreAttribute) (core : List (String × Value)) :
    ∀ acc, (validateAttributes attrs core acc).2 = ValidationError.nil ↔
      ∀ a ∈ attrs, matchCount a.name core ≤ 1 ∧
        (a.validate (hitOf a.name core)).2 = ValidationError.nil := by
  induction attrs with
  | nil => intro acc; simp [validateAttributes]
  | cons a rest ih =>
    intro acc
    simp only [validateAttributes, validateScan_null]
    by_cases h2 : 2 ≤ matchCount a.name core
    · simp only [if_pos h2]
      constructor
      · intro hfalse; simp at hfalse
      · intro hall
        have := (hall a (by simp)).1
        omega
    · simp only [if_neg h2]
      by_cases hv : (a.validate (hitOf a.name core)).2 = ValidationError.nil
      · simp only [hv, ne_eq, not_true_eq_false, if_false, List.mem_cons, forall_eq_or_imp]
        rw [ih]
        constructor
        · intro hrest; exact ⟨⟨by omega, trivial⟩, hrest⟩
        · rintro ⟨_, hrest⟩; exact hrest
      · simp [hv]

/-- The attribute loop of Validate returns no mapping exactly when it
reports an error. -/
theorem validateAttributes_none_iff (attrs : List CoreAttribute) (core : List (String × Value)) :
    ∀ acc, (validateAttributes attrs core acc).1 = none ↔
      (validateAttributes attrs core acc).2 ≠ ValidationError.nil := by
  induction attrs with
  | nil => intro acc; simp [validateAttributes]
  | cons a rest ih =>
    intro acc
    simp only [validateAttributes, validateScan_null]
    by_cases h2 : 2 ≤ matchCount a.name core
    · simp [if_pos h2]
    · simp only [if_neg h2]
      by_cases hv : (a.validate (hitOf a.name core)).2 = ValidationError.nil
      · simp only [hv, ne_eq, not_true_eq_false, if_false]
        exact ih _
      · simp [hv]

/-- C1: whole-document validation Validate(S, D) succeeds if and only if
D is a flat key-value mapping, every declared top-level attribute of S
has at most one case-insensitive key match in D, and for each declared
attribute the matched value (or the absent marker when no key matches)
is accepted by the validate capability of that attribute; success is
equivalently the presence of the output mapping. -/
theorem Validate_ok_iff (s : Schema) (resource : Value) :
    ((s.Validate resource).2 = ValidationError.nil ↔
      ∃ core, resource = Value.obj core ∧
        ∀ a ∈ s.Attributes, matchCount a.name core ≤ 1 ∧
          (a.validate (hitOf a.name core)).2 = ValidationError.nil) ∧
    ((s.Validate resource).1.isSome = true ↔ (s.Validate resource).2 = ValidationError.nil) := by
  constructor
  · cases resource with
    | obj core =>
      simp only [Schema.Validate]
      rw [validateAttributes_ok_iff]
      constructor
      · intro h; exact ⟨core, rfl, h⟩
      · rintro ⟨core2, hc, h⟩
        rw [Value.obj.injEq] at hc
        subst hc
        exact h
    | null => simp [Schema.Validate]
    | str s2 => simp [Schema.Validate]
    | num n => simp [Schema.Validate]
    | bool b => simp [Schema.Validate]
    | arr elems => simp [Schema.Validate]
  · cases resource with
    | obj core =>
      simp only [Schema.Validate]
      rw [Option.isSome_iff_ne_none, ne_eq, validateAttributes_none_iff, not_not]
    | null => simp [Schema.Validate]
    | str s2 => simp [Schema.Validate]
    | num n => simp [Schema.Validate]
    | bool b => simp [Schema.Validate]
    | arr elems => simp [Schema.Validate]

/-- C2: the mutability guard cannotBePatched is exactly the decision
table: ReadOnly is blocked for every operation kind; Immutable is blocked
exactly for replace and remove; ReadWrite and WriteOnly are never
blocked, whatever the operation kind. -/
theorem cannotBePatched_iff (op : String) (attr : CoreAttribute) :
    cannotBePatched op attr = true ↔
      (attr.mutability = attributeMutabilityReadOnly ∨
       (attr.mutability = attributeMutabilityImmutable ∧ (op = "replace" ∨ op = "remove"))) := by
  obtain ⟨n, m, subs, f, r⟩ := attr
  cases m <;>
    simp [cannotBePatched, isImmutable, isReadOnly, CoreAttribute.mutability,
      attributeMutabilityReadOnly, attributeMutabilityImmutable,
      attributeMutabilityReadWrite, attributeMutabilityWriteOnly, beq_iff_eq]

/-- A blocked first match aborts the scan of findAttribute with the value
error, for every remaining sub-path. -/
theorem findAttrAux_blocked (op name sub : String) (attrs : List CoreAttribute) (attr : CoreAttribute)
    (hfind : attrs.find? (fun a => EqualFold a.name name) = some attr)
    (hblock : cannotBePatched op attr = true) :
    findAttrAux op name sub attrs = (none, ValidationError.invalidValue) := by
  induction attrs with
  | nil => simp at hfind
  | cons a rest ih =>
    obtain ⟨n, m, subs, f, r⟩ := a
    cases h : EqualFold n name with
    | true =>
      have heq : some (CoreAttribute.mk n m subs f r) = some attr := by
        rw [← hfind, List.find?_cons_of_pos]
        simpa [CoreAttribute.name] using h
      obtain rfl := (Option.some.injEq _ _).mp heq
      simp [findAttrAux, h, hblock]
    | false =>
      rw [List.find?_cons_of_neg] at hfind
      · simp only [findAttrAux, h, Bool.false_eq_true, if_false]
        exact ih hfind
      · simp [CoreAttribute.name, h]

/-- C3: when the matched attribute at any level of path resolution is
mutability-blocked for the operation kind, resolution yields the value
error immediately, whatever sub-path remains: a blocked parent blocks
resolution of all of its children, regardless of their own mutability. -/
theorem findAttribute_blocked_parent (op path name sub : String) (attrs : List CoreAttribute) (attr : CoreAttribute)
    (hparse : parsePath path = some (name, sub))
    (hfind : attrs.find? (fun a => EqualFold a.name name) = some attr)
    (hblock : cannotBePatched op attr = true) :
    findAttribute op path attrs = (none, ValidationError.invalidValue) := by
  simp only [findAttribute, hparse]
  exact findAttrAux_blocked op name sub attrs attr hfind hblock

/-- Witness for C3: a ReadOnly parent with a ReadWrite child blocks the
resolution of the child path under an add operation. -/
theorem findAttribute_blocked_parent_witness :
    parsePath "name.familyName" = some ("name", "familyName") ∧
    [nameAttrReadOnly].find? (fun a => EqualFold a.name "name") = some nameAttrReadOnly ∧
    cannotBePatched "add" nameAttrReadOnly = true ∧
    findAttribute "add" "name.familyName" [nameAttrReadOnly] = (none, ValidationError.invalidValue) :=
  ⟨by decide, rfl, rfl,
    findAttribute_blocked_parent "add" "name.familyName" "name" "familyName"
      [nameAttrReadOnly] nameAttrReadOnly (by decide) rfl rfl⟩

/-- C4: for a patch instruction whose operation kind is exactly remove,
validation succeeds exactly when every path of the instruction resolves
to an attribute that is not mutability-blocked; the values associated to
the paths play no role, so the validate capability is never consulted. -/
theorem validatePatch_remove_iff (s : Schema) (operationValue : List (String × Value)) :
    s.ValidatePatchOperationValue "remove" operationValue = ValidationError.nil ↔
      ∀ kv ∈ operationValue, ∃ attr,
        findAttribute "remove" kv.1 s.Attributes = (some attr, ValidationError.nil) ∧
        cannotBePatched "remove" attr = false := by
  simp only [Schema.ValidatePatchOperationValue]
  induction operationValue with
  | nil => simp [validatePatchPairs]
  | cons kv rest ih =>
    obtain ⟨k, v⟩ := kv
    rcases hfa : findAttribute "remove" k s.Attributes with ⟨attrOpt, err⟩
    simp only [validatePatchPairs, hfa, List.mem_cons, forall_eq_or_imp, Prod.mk.injEq,
      Option.some.injEq]
    by_cases herr : err = ValidationError.nil
    · subst herr
      cases attrOpt with
      | none => simp
      | some a =>
        cases hb : cannotBePatched "remove" a with
        | true => simp [hb]
        | false => simpa [hb] using ih
    · simp [herr]

/-- C8: for an unblocked parent attribute named name with an unblocked
child named familyName, path resolution descends into the child: the path
name.familyName resolves to the child, while name.bogus fails with the
value error. -/
theorem findAttribute_nested (op : String) (parent child : CoreAttribute)
    (hpn : parent.name = "name") (hcn : child.name = "familyName")
    (hsubs : parent.subAttributes = [child])
    (hpo : cannotBePatched op parent = false)
    (hco : cannotBePatched op child = false) :
    findAttribute op "name.familyName" [parent] = (some child, ValidationError.nil) ∧
    findAttribute op "name.bogus" [parent] = (none, ValidationError.invalidValue) := by
  obtain ⟨pn, pm, psubs, pf, pr⟩ := parent
  simp only [CoreAttribute.name, CoreAttribute.subAttributes] at hpn hsubs
  subst hpn; subst hsubs
  obtain ⟨cn, cm, csubs, cf, cr⟩ := child
  simp only [CoreAttribute.name] at hcn
  subst hcn
  constructor
  · simp only [findAttribute,
      show parsePath "name.familyName" = some ("name", "familyName") from by decide]
    simp [findAttrAux, hpo, hco,
      show EqualFold "name" "name" = true from by decide,
      show EqualFold "familyName" "familyName" = true from by decide,
      show ("familyName" : String) ≠ "" from by decide,
      show parsePath "familyName" = some ("familyName", "") from by decide]
  · simp only [findAttribute,
      show parsePath "name.bogus" = some ("name", "bogus") from by decide]
    simp [findAttrAux, hpo, hco,
      show EqualFold "name" "name" = true from by decide,
      show EqualFold "familyName" "bogus" = false from by decide,
      show ("bogus" : String) ≠ "" from by decide,
      show parsePath "bogus" = some ("bogus", "") from by decide]

/-- Witness for C8: the concrete ReadWrite parent and child resolve the
nested path and reject the bogus one under an add operation. -/
theorem findAttribute_nested_witness :
    cannotBePatched "add" nameAttrRW = false ∧
    cannotBePatched "add" familyNameAttr = false ∧
    findAttribute "add" "name.familyName" [nameAttrRW] = (some familyNameAttr, ValidationError.nil) ∧
    findAttribute "add" "name.bogus" [nameAttrRW] = (none, ValidationError.invalidValue) :=
  ⟨rfl, rfl,
    (findAttribute_nested "add" nameAttrRW familyNameAttr rfl rfl rfl rfl rfl).1,
    (findAttribute_nested "add" nameAttrRW familyNameAttr rfl rfl rfl rfl rfl).2⟩

/-- With a duplicated attribute somewhere in the list, the attribute loop
reports the syntax error as soon as every earlier attribute passes its
own check. -/
theorem validateAttributes_dup (attrD : CoreAttribute) (post : List CoreAttribute)
    (core : List (String × Value)) (hdup : 2 ≤ matchCount attrD.name core) :
    ∀ pre : List CoreAttribute,
      (∀ a ∈ pre, matchCount a.name core ≤ 1 ∧
        (a.validate (hitOf a.name core)).2 = ValidationError.nil) →
      ∀ acc, validateAttributes (pre ++ attrD :: post) core acc
        = (none, ValidationError.invalidSyntaxErr) := by
  intro pre
  induction pre with
  | nil =>
    intro _ acc
    simp only [List.nil_append, validateAttributes, validateScan_null, if_pos hdup]
  | cons a pre2 ih =>
    intro hpre acc
    have ha := hpre a (by simp)
    simp only [List.cons_append, validateAttributes, validateScan_null]
    rw [if_neg (by omega)]
    simp only [ha.2, ne_eq, not_true_eq_false, if_false]
    exact ih (fun b hb => hpre b (List.mem_cons_of_mem _ hb)) _

/-- C5 amended: when two or more document keys case-insensitively match
one declared attribute, whole-document validation always fails and
returns no output mapping; the reported error is the syntax error
provided every attribute declared before the duplicated one passes its
own check (an earlier failing attribute reports its own error first). -/
theorem Validate_duplicate (s : Schema) (core : List (String × Value))
    (pre post : List CoreAttribute) (attrD : CoreAttribute)
    (hsplit : s.Attributes = pre ++ attrD :: post)
    (hdup : 2 ≤ matchCount attrD.name core) :
    (s.Validate (Value.obj core)).1 = none ∧
    ((∀ a ∈ pre, matchCount a.name core ≤ 1 ∧
        (a.validate (hitOf a.name core)).2 = ValidationError.nil) →
      s.Validate (Value.obj core) = (none, ValidationError.invalidSyntaxErr)) := by
  constructor
  · have h1 : (validateAttributes s.Attributes core []).2 ≠ ValidationError.nil := by
      intro hnil
      rw [validateAttributes_ok_iff] at hnil
      have hall := hnil
      have hmem : attrD ∈ s.Attributes := by
        rw [hsplit]; exact List.mem_append_right _ (List.mem_cons_self _ _)
      have := (hall attrD hmem).1
      omega
    simpa [Schema.Validate] using (validateAttributes_none_iff s.Attributes core []).mpr h1
  · intro hpre
    simp only [Schema.Validate, hsplit]
    exact validateAttributes_dup attrD post core hdup pre hpre []

/-- C5 counterexample: the document carries two distinct keys matching
the declared attribute userName case-insensitively, yet validation
reports the value error of the earlier declared attribute, not the
syntax error the claim promises unconditionally. -/
theorem Validate_duplicate_cex :
    ("userName" : String) ≠ "USERNAME" ∧
    EqualFold userNameAttr.name "userName" = true ∧
    EqualFold userNameAttr.name "USERNAME" = true ∧
    userNameAttr ∈ cexSchema.Attributes ∧
    cexSchema.Validate (Value.obj cexDoc) = (none, ValidationError.invalidValue) ∧
    ValidationError.invalidValue ≠ ValidationError.invalidSyntaxErr :=
  ⟨by decide, by decide, by decide,
   List.mem_cons_of_mem _ (List.mem_cons_self _ _), rfl, by decide⟩

/-- The duplicate scan is unchanged when every key is replaced by a case
variant carrying the same value. -/
theorem validateScan_congr (core core2 : List (String × Value))
    (h : List.Forall₂ (fun kv kv2 => EqualFold kv.1 kv2.1 = true ∧ kv.2 = kv2.2) core core2) :
    ∀ name found hit, validateScan name found hit core = validateScan name found hit core2 := by
  induction h with
  | nil => intro name found hit; rfl
  | @cons kv kv2 l1 l2 hk hrest ih =>
    obtain ⟨k, v⟩ := kv
    obtain ⟨k2, v2⟩ := kv2
    obtain ⟨hkk, hvv⟩ := hk
    simp only at hvv
    subst hvv
    intro name found hit
    have hcond := EqualFold_congr k k2 hkk name
    simp only [validateScan]
    rw [← hcond]
    cases hEF : EqualFold name k with
    | true =>
      simp only [if_true]
      cases found with
      | true => rfl
      | false => exact ih name true v
    | false =>
      simp only [Bool.false_eq_true, if_false]
      exact ih name found hit

/-- The attribute loop is unchanged when every key is replaced by a case
variant carrying the same value. -/
theorem validateAttributes_congr (core core2 : List (String × Value))
    (h : List.Forall₂ (fun kv kv2 => EqualFold kv.1 kv2.1 = true ∧ kv.2 = kv2.2) core core2) :
    ∀ attrs acc, validateAttributes attrs core acc = validateAttributes attrs core2 acc := by
  intro attrs
  induction attrs with
  | nil => intro acc; rfl
  | cons a rest ih =>
    intro acc
    simp only [validateAttributes]
    rw [← validateScan_congr core core2 h a.name false Value.null]
    cases hscan : validateScan a.name false Value.null core with
    | none => rfl
    | some p =>
      obtain ⟨b, hit⟩ := p
      by_cases hv : (a.validate hit).2 = ValidationError.nil
      · simp only [hv, ne_eq, not_true_eq_false, if_false]
        exact ih _
      · simp [hv]

/-- C6: whole-document validation is insensitive to the letter case of
the document keys: replacing every key by a case variant with the same
value yields the identical outcome (same error or same output mapping
under the canonical schema-declared names). -/
theorem Validate_case_insensitive (s : Schema) (core core2 : List (String × Value))
    (h : List.Forall₂ (fun kv kv2 => EqualFold kv.1 kv2.1 = true ∧ kv.2 = kv2.2) core core2) :
    s.Validate (Value.obj core) = s.Validate (Value.obj core2) := by
  simp only [Schema.Validate]
  exact validateAttributes_congr core core2 h s.Attributes []

/-- Witness for C6: an upper-case key yields the same outcome as the
declared spelling, and the output mapping uses the canonical name. -/
theorem Validate_case_insensitive_witness :
    List.Forall₂ (fun kv kv2 => EqualFold kv.1 kv2.1 = true ∧ kv.2 = kv2.2)
      [("USERNAME", Value.str "x")] [("userName", Value.str "x")] ∧
    demoSchema.Validate (Value.obj [("USERNAME", Value.str "x")])
      = demoSchema.Validate (Value.obj [("userName", Value.str "x")]) ∧
    demoSchema.Validate (Value.obj [("USERNAME", Value.str "x")])
      = (some [("userName", Value.str "x")], ValidationError.nil) :=
  ⟨.cons ⟨by decide, rfl⟩ .nil,
   Validate_case_insensitive demoSchema _ _ (.cons ⟨by decide, rfl⟩ .nil),
   rfl⟩

/-- C7: every input to whole-document validation that is not a flat
key-value mapping fails immediately with the syntax error and returns no
output mapping. -/
theorem Validate_non_mapping (s : Schema) (resource : Value)
    (h : ∀ fields, resource ≠ Value.obj fields) :
    s.Validate resource = (none, ValidationError.invalidSyntaxErr) := by
  cases resource with
  | obj fields => exact absurd rfl (h fields)
  | null => rfl
  | str s2 => rfl
  | num n => rfl
  | bool b => rfl
  | arr elems => rfl

/-- Witness for C7: a scalar string and a sequence both fail with the
syntax error. -/
theorem Validate_non_mapping_witness :
    (∀ fields, Value.str "a string" ≠ Value.obj fields) ∧
    demoSchema.Validate (Value.str "a string") = (none, ValidationError.invalidSyntaxErr) ∧
    demoSchema.Validate (Value.arr [Value.num 1, Value.num 2, Value.num 3])
      = (none, ValidationError.invalidSyntaxErr) :=
  ⟨fun _ heq => Value.noConfusion heq,
   Validate_non_mapping demoSchema (Value.str "a string") (fun _ hf => Value.noConfusion hf),
   Validate_non_mapping demoSchema (Value.arr [Value.num 1, Value.num 2, Value.num 3])
     (fun _ hf => Value.noConfusion hf)⟩

/-- Witness for C5: with the duplicated attribute declared first, the
failure is the syntax error and no mapping is produced. -/
theorem Validate_duplicate_witness :
    demoSchema.Attributes = [] ++ userNameAttr :: [] ∧
    2 ≤ matchCount userNameAttr.name cexDoc ∧
    (demoSchema.Validate (Value.obj cexDoc)).1 = none ∧
    demoSchema.Validate (Value.obj cexDoc) = (none, ValidationError.invalidSyntaxErr) :=
  ⟨rfl, by decide,
   (Validate_duplicate demoSchema cexDoc [] [] userNameAttr rfl (by decide)).1,
   (Validate_duplicate demoSchema cexDoc [] [] userNameAttr rfl (by decide)).2
     (fun a ha => absurd ha (List.not_mem_nil a))⟩

/-- C9: the serialized schema document has exactly the four keys id,
name, description and attributes; the name and description keys are
present even when the underlying optional fields are absent (rendered as
null and as the empty string); and attributes renders the declared
attributes in declaration order through their own rendering capability,
one entry per declared attribute. -/
theorem MarshalJSON_shape (s : Schema) :
    (s.MarshalJSON).map Prod.fst = ["id", "name", "description", "attributes"] ∧
    lookupKV "id" s.MarshalJSON = some (Value.str s.ID) ∧
    lookupKV "name" s.MarshalJSON = some (marshalOptionalString s.Name) ∧
    lookupKV "description" s.MarshalJSON = some (Value.str (optionalStringValue s.Description)) ∧
    lookupKV "attributes" s.MarshalJSON
      = some (Value.arr ((s.Attributes.map CoreAttribute.rawAttributes).map Value.obj)) ∧
    ((s.Attributes.map CoreAttribute.rawAttributes).map Value.obj).length = s.Attributes.length :=
  ⟨rfl, rfl, rfl, rfl, rfl, by simp⟩

/-- The duplicate scan ignores an entry whose key matches no declared
name. -/
theorem validateScan_skip (name k : String) (v : Value) (hk : EqualFold name k = false)
    (pre post : List (String × Value)) :
    ∀ found hit, validateScan name found hit (pre ++ (k, v) :: post)
      = validateScan name found hit (pre ++ post) := by
  induction pre with
  | nil =>
    intro found hit
    simp only [List.nil_append, validateScan, hk, Bool.false_eq_true, if_false]
  | cons kv pre2 ih =>
    obtain ⟨k0, v0⟩ := kv
    intro found hit
    simp only [List.cons_append, validateScan]
    cases hEF : EqualFold name k0 with
    | true =>
      simp only [if_true]
      cases found with
      | true => rfl
      | false => exact ih true v0
    | false =>
      simp only [Bool.false_eq_true, if_false]
      exact ih found hit

/-- The attribute loop ignores an entry whose key matches none of the
declared attribute names. -/
theorem validateAttributes_skip (attrs : List CoreAttribute) (k : String) (v : Value)
    (h : ∀ a ∈ attrs, EqualFold a.name k = false)
    (pre post : List (String × Value)) :
    ∀ acc, validateAttributes attrs (pre ++ (k, v) :: post) acc
      = validateAttributes attrs (pre ++ post) acc := by
  induction attrs with
  | nil => intro acc; rfl
  | cons a rest ih =>
    intro acc
    simp only [validateAttributes]
    rw [validateScan_skip a.name k v (h a (by simp)) pre post]
    cases hscan : validateScan a.name false Value.null (pre ++ post) with
    | none => rfl
    | some p =>
      obtain ⟨b, hit⟩ := p
      by_cases hv : (a.validate hit).2 = ValidationError.nil
      · simp only [hv, ne_eq, not_true_eq_false, if_false]
        exact ih (fun b2 hb => h b2 (List.mem_cons_of_mem _ hb)) _
      · simp [hv]

/-- A key is present after a map insert exactly when it is the inserted
key or was present before. -/
theorem lookupKV_insertKV (acc : List (String × Value)) (n key : String) (v : Value) :
    (lookupKV key (insertKV acc n v)).isSome = true ↔
      (key = n ∨ (lookupKV key acc).isSome = true) := by
  induction acc with
  | nil =>
    by_cases h : n = key
    · simp [insertKV, lookupKV, h]
    · have h2 : ¬ key = n := fun hk => h hk.symm
      simp [insertKV, lookupKV, h, h2]
  | cons kv acc2 ih =>
    obtain ⟨k0, w⟩ := kv
    by_cases hk0 : k0 = n
    · subst hk0
      by_cases hkey : k0 = key
      · simp [insertKV, lookupKV, hkey]
      · have h2 : ¬ key = k0 := fun hk => hkey hk.symm
        simp [insertKV, lookupKV, hkey, h2]
    · by_cases hkey : k0 = key
      · subst hkey
        simp [insertKV, lookupKV, hk0]
      · simp [insertKV, lookupKV, hk0, hkey, ih]

/-- On success the key set of the accumulated output mapping is the keys
already present plus the names of the processed attributes. -/
theorem validateAttributes_keys (attrs : List CoreAttribute) (core : List (String × Value)) :
    ∀ acc m, (validateAttributes attrs core acc).1 = some m →
      ∀ key, (lookupKV key m).isSome = true ↔
        ((lookupKV key acc).isSome = true ∨ ∃ a ∈ attrs, a.name = key) := by
  induction attrs with
  | nil =>
    intro acc m hm key
    simp only [validateAttributes] at hm
    obtain rfl := (Option.some.injEq _ _).mp hm
    simp
  | cons a rest ih =>
    intro acc m hm key
    simp only [validateAttributes] at hm
    cases hscan : validateScan a.name false Value.null core with
    | none => rw [hscan] at hm; simp at hm
    | some p =>
      obtain ⟨b, hit⟩ := p
      rw [hscan] at hm
      by_cases hv : (a.validate hit).2 = ValidationError.nil
      · simp only [hv, ne_eq, not_true_eq_false, if_false] at hm
        rw [ih _ m hm key, lookupKV_insertKV]
        simp only [List.mem_cons, exists_eq_or_imp]
        constructor
        · rintro ((hk | hacc) | hrest)
          · exact Or.inr (Or.inl hk.symm)
          · exact Or.inl hacc
          · exact Or.inr (Or.inr hrest)
        · rintro (hacc | hk | hrest)
          · exact Or.inl (Or.inr hacc)
          · exact Or.inl (Or.inl hk.symm)
          · exact Or.inr hrest
      · simp [hv] at hm

/-- C10: whole-document validation silently ignores undeclared fields:
removing an entry whose key matches no declared attribute name leaves the
outcome unchanged, and on success the key set of the output mapping is
exactly the set of declared top-level attribute names. -/
theorem Validate_ignores_undeclared (s : Schema) (pre post : List (String × Value))
    (k : String) (v : Value)
    (h : ∀ a ∈ s.Attributes, EqualFold a.name k = false) :
    s.Validate (Value.obj (pre ++ (k, v) :: post)) = s.Validate (Value.obj (pre ++ post)) ∧
    (∀ m, (s.Validate (Value.obj (pre ++ post))).1 = some m →
      ∀ key, (lookupKV key m).isSome = true ↔ ∃ a ∈ s.Attributes, a.name = key) := by
  constructor
  · simp only [Schema.Validate]
    exact validateAttributes_skip s.Attributes k v h pre post []
  · intro m hm key
    simp only [Schema.Validate] at hm
    have hk := validateAttributes_keys s.Attributes (pre ++ post) [] m hm key
    simpa [lookupKV] using hk

/-- Witness for C10: an undeclared key foo is ignored, and the output
keys are exactly the declared names. -/
theorem Validate_ignores_undeclared_witness :
    (∀ a ∈ demoSchema.Attributes, EqualFold a.name "foo" = false) ∧
    demoSchema.Validate (Value.obj [("foo", Value.num 1), ("userName", Value.str "x")])
      = demoSchema.Validate (Value.obj [("userName", Value.str "x")]) ∧
    ((lookupKV "userName" [("userName", Value.str "x")]).isSome = true ↔
      ∃ a ∈ demoSchema.Attributes, a.name = "userName") := by
  have hnf : ∀ a ∈ demoSchema.Attributes, EqualFold a.name "foo" = false := by
    intro a ha
    rw [show demoSchema.Attributes = [userNameAttr] from rfl, List.mem_singleton] at ha
    subst ha
    decide
  refine ⟨hnf, ?_, ?_⟩
  · exact (Validate_ignores_undeclared demoSchema [] [("userName", Value.str "x")]
      "foo" (Value.num 1) hnf).1
  · exact (Validate_ignores_undeclared demoSchema [] [("userName", Value.str "x")]
      "foo" (Value.num 1) hnf).2 [("userName", Value.str "x")] rfl "userName"

end Scim
